import Mathlib

/-!
Shallow embedding of the ranking-metric evaluator of
`official/recommendation/ncf_main.py` (`evaluate_model`), and proofs of the
spec's claims about it.

The evaluator receives a flat vector of predicted scores and the number of
users, reshapes it into one row per user (`np.reshape(num_users, -1)`),
derives each row's top-`_TOP_K` column indices
(`np.argsort(..., axis=1)[:, -_TOP_K:]` followed by `np.flip(..., axis=1)`),
and computes Hit Ratio and NDCG from the positions where column index `0`
(the true item) appears (`np.argwhere(np.equal(top_indicies, 0))`).

Modelling decisions:
* scores are rationals (ℚ): the comparisons the code performs are decidable
  and executable there, while the metrics that involve logarithms live in ℝ;
* `np.argsort` is modelled as a stable ascending sort of the column indices
  (ties keep ascending index order); numpy's default sort on the small rows
  exercised by every concrete input below is insertion sort, which is stable;
* `np.reshape(num_users, -1)` fails (raises `ValueError`) exactly when
  `num_users = 0` or when the flat length is not divisible by `num_users`;
  this failure is modelled by returning `none`.
-/

namespace NcfMain

/-- `_TOP_K = 10  # Top-k list for evaluation` -/
def TOP_K : ℕ := 10

/-- Score stored in column `j` of a row (out-of-range columns never arise;
the default `0` is irrelevant). -/
def col (row : List ℚ) (j : ℕ) : ℚ := row.getD j 0

/-- The total preorder by which the (stable, ascending) `np.argsort` orders
column indices: by score ascending, ties by ascending column index. -/
def argKeyLe (row : List ℚ) (i j : ℕ) : Prop :=
  col row i < col row j ∨ (col row i = col row j ∧ i ≤ j)

instance argKeyLe.decidableRel (row : List ℚ) : DecidableRel (argKeyLe row) :=
  fun _ _ => by unfold argKeyLe; infer_instance

/-- `np.argsort(row)`: the column indices `0, …, W-1` sorted by ascending
score (stably, so ties stay in ascending index order). -/
def argsortRow (row : List ℚ) : List ℕ :=
  List.insertionSort (argKeyLe row) (List.range row.length)

/-- One row of `np.argsort(...)[:, -_TOP_K:]` followed by
`np.flip(..., axis=1)`: the last `TOP_K` entries of the ascending argsort,
reversed (numpy's `[-K:]` keeps the whole row when `K ≥ W`, as does
`drop (W - K)` with truncated subtraction). -/
def top_indicies (row : List ℚ) : List ℕ :=
  ((argsortRow row).drop (row.length - TOP_K)).reverse

/-- The 0-based positions at which the value `0` occurs in a list: one row's
worth of `np.argwhere(np.equal(top_indicies, 0))` (the column coordinates of
the matches, in order). -/
def zeroPositions : List ℕ → List ℕ
  | [] => []
  | a :: t =>
      if a = 0 then 0 :: (zeroPositions t).map (· + 1)
      else (zeroPositions t).map (· + 1)

/-- `np.reshape(num_users, -1)`: `num_users` rows of width
`len(scores) / num_users`. Only meaningful under the guard of
`evaluate_model`. -/
def rowsOf (scores : List ℚ) (numUsers : ℕ) : List (List ℚ) :=
  (List.range numUsers).map fun u =>
    (scores.drop (u * (scores.length / numUsers))).take
      (scores.length / numUsers)

/-- The two metrics `evaluate_model` puts into its result dict (the global
step entry is opaque orchestration and not modelled). -/
structure EvalResults where
  hr : ℚ
  ndcg : ℝ

/-- `np.log(2) / np.log(p + 2)`: the NDCG contribution of a hit at 0-based
rank `p` (noncomputable only because `Real.log` is). -/
noncomputable def dcgAt (p : ℕ) : ℝ := Real.log 2 / Real.log (p + 2)

/-- The computable core of the metric computation: the per-user lists of
0-based ranks at which the true item (column index 0) sits in the top-K
list, i.e. the rows of `np.argwhere(np.equal(top_indicies, 0))`. -/
def hitsOf (scores : List ℚ) (numUsers : ℕ) : List (List ℕ) :=
  (rowsOf scores numUsers).map fun row => zeroPositions (top_indicies row)

/-- The metric computation of `evaluate_model`:

    predicted_scores_by_user = np.concatenate(...).reshape(num_users, -1)
    top_indicies = np.argsort(predicted_scores_by_user, axis=1)[:, -_TOP_K:]
    top_indicies = np.flip(top_indicies, axis=1)
    hit_indicies = np.argwhere(np.equal(top_indicies, 0))
    hr = hit_indicies.shape[0] / num_users
    ndcg = np.sum(np.log(2) / np.log(hit_indicies[:, 1] + 2)) / num_users

`none` models the `ValueError` that `reshape` raises when `num_users = 0`
or `num_users` does not divide the flat length. -/
noncomputable def evaluate_model (scores : List ℚ) (numUsers : ℕ) :
    Option EvalResults :=
  if 0 < numUsers ∧ scores.length % numUsers = 0 then
    some { hr := (((hitsOf scores numUsers).map List.length).sum : ℚ) / numUsers,
           ndcg := ((hitsOf scores numUsers).map fun hs =>
              (hs.map dcgAt).sum).sum / numUsers }
  else none

/-- The number of columns of a row whose score is strictly below the true
item's score (column 0). This count fully determines the true item's rank. -/
def beatCount (row : List ℚ) : ℕ :=
  row.countP fun x => decide (x < col row 0)

/-- The top-K ordering the spec claims the evaluator produces: strictly
descending by score, ties broken by ascending original column index. -/
def specClaimedOrder (row : List ℚ) (l : List ℕ) : Prop :=
  l.Pairwise fun i j =>
    col row j < col row i ∨ (col row i = col row j ∧ i < j)

/-- A 1-user, 12-column score matrix whose true item (column 0) scores
below all eleven negatives, so it falls outside the top-10. -/
def sampleNoHit : List ℚ := [0, 1, 2, 3, 4, 5, 6, 7, 8, 9, 10, 11]

instance argKeyLe.isTotal (row : List ℚ) : IsTotal ℕ (argKeyLe row) :=
  ⟨by
    intro i j
    rcases lt_trichotomy (col row i) (col row j) with h | h | h
    · exact Or.inl (Or.inl h)
    · rcases le_total i j with hij | hij
      · exact Or.inl (Or.inr ⟨h, hij⟩)
      · exact Or.inr (Or.inr ⟨h.symm, hij⟩)
    · exact Or.inr (Or.inl h)⟩

instance argKeyLe.isTrans (row : List ℚ) : IsTrans ℕ (argKeyLe row) :=
  ⟨by
    intro i j k hij hjk
    rcases hij with h1 | ⟨e1, l1⟩
    · rcases hjk with h2 | ⟨e2, _⟩
      · exact Or.inl (h1.trans h2)
      · exact Or.inl (e2 ▸ h1)
    · rcases hjk with h2 | ⟨e2, l2⟩
      · exact Or.inl (e1 ▸ h2)
      · exact Or.inr ⟨e1.trans e2, l1.trans l2⟩⟩

/-! ### Basic facts about the modelled `argsort` -/

lemma argsortRow_perm (row : List ℚ) :
    List.Perm (argsortRow row) (List.range row.length) :=
  List.perm_insertionSort _ _

lemma argsortRow_sorted (row : List ℚ) :
    (argsortRow row).Sorted (argKeyLe row) :=
  List.sorted_insertionSort _ _

lemma argsortRow_nodup (row : List ℚ) : (argsortRow row).Nodup :=
  ((argsortRow_perm row).nodup_iff).mpr (List.nodup_range _)

lemma argsortRow_length (row : List ℚ) :
    (argsortRow row).length = row.length := by
  simpa using (argsortRow_perm row).length_eq

lemma mem_argsortRow {row : List ℚ} {i : ℕ} :
    i ∈ argsortRow row ↔ i < row.length := by
  rw [(argsortRow_perm row).mem_iff, List.mem_range]

/-! ### Positions of the true item -/

lemma zeroPositions_of_not_mem {l : List ℕ} (h : 0 ∉ l) :
    zeroPositions l = [] := by
  induction l with
  | nil => rfl
  | cons a t ih =>
      rw [List.mem_cons, not_or] at h
      rw [zeroPositions, if_neg (fun e => h.1 e.symm), ih h.2]
      rfl

lemma zeroPositions_append_zero (A B : List ℕ) (hA : 0 ∉ A) (hB : 0 ∉ B) :
    zeroPositions (A ++ 0 :: B) = [A.length] := by
  induction A with
  | nil => simp [zeroPositions, zeroPositions_of_not_mem hB]
  | cons a A ih =>
      rw [List.mem_cons, not_or] at hA
      rw [List.cons_append, zeroPositions, if_neg (fun e => hA.1 e.symm),
        ih hA.2]
      rfl

lemma mem_zeroPositions_lt {l : List ℕ} {p : ℕ} (h : p ∈ zeroPositions l) :
    p < l.length := by
  induction l generalizing p with
  | nil => simp [zeroPositions] at h
  | cons a t ih =>
      rw [zeroPositions] at h
      by_cases ha : a = 0
      · rw [if_pos ha, List.mem_cons] at h
        rcases h with h | h
        · simp [h]
        · obtain ⟨q, hq, rfl⟩ := List.mem_map.mp h
          exact Nat.succ_lt_succ (ih hq)
      · rw [if_neg ha] at h
        obtain ⟨q, hq, rfl⟩ := List.mem_map.mp h
        exact Nat.succ_lt_succ (ih hq)

/-- Counting positions of `range l.length` by a predicate on the stored
value is the same as counting the values themselves. -/
lemma countP_range_getD (l : List ℚ) (P : ℚ → Bool) :
    (List.range l.length).countP (fun j => P (l.getD j 0)) = l.countP P := by
  induction l with
  | nil => simp
  | cons a t ih =>
      rw [List.length_cons, List.range_succ_eq_map, List.countP_cons,
        List.countP_map, List.countP_cons]
      simp only [Function.comp_def, List.getD_cons_succ, List.getD_cons_zero]
      rw [ih]

/-- The stable ascending argsort of a nonempty row splits around the true
item's index `0`: everything before it scores strictly below column 0,
everything after does not, and the prefix length is `beatCount`. -/
lemma argsortRow_split (row : List ℚ) (h : 0 < row.length) :
    ∃ S T, argsortRow row = S ++ 0 :: T ∧ 0 ∉ S ∧ 0 ∉ T ∧
      S.length = beatCount row ∧ row.length = S.length + T.length + 1 := by
  have hmem : 0 ∈ argsortRow row := mem_argsortRow.mpr h
  obtain ⟨S, T, hST⟩ := List.append_of_mem hmem
  have hnd : (S ++ 0 :: T).Nodup := hST ▸ argsortRow_nodup row
  have hS0 : 0 ∉ S := fun hin =>
    (List.disjoint_of_nodup_append hnd) hin (List.mem_cons_self 0 T)
  have hT0 : 0 ∉ T := (List.nodup_cons.mp hnd.of_append_right).1
  have hsor : (S ++ 0 :: T).Pairwise (argKeyLe row) :=
    hST ▸ argsortRow_sorted row
  rw [List.pairwise_append] at hsor
  obtain ⟨-, hsor2, hcross⟩ := hsor
  have hT : ∀ y ∈ T, argKeyLe row 0 y := (List.pairwise_cons.mp hsor2).1
  refine ⟨S, T, hST, hS0, hT0, ?_, ?_⟩
  · -- count the columns scoring strictly below column 0 along the argsort
    have hcount :
        (S ++ 0 :: T).countP (fun j => decide (col row j < col row 0)) =
          S.length := by
      rw [List.countP_append, List.countP_cons]
      have h1 : S.countP (fun j => decide (col row j < col row 0)) =
          S.length := by
        apply List.countP_eq_length.mpr
        intro x hx
        have hx0 : x ≠ 0 := fun e => hS0 (e ▸ hx)
        rcases hcross x hx 0 (List.mem_cons_self 0 T) with hlt | ⟨-, hle⟩
        · exact decide_eq_true hlt
        · exact absurd (Nat.le_zero.mp hle) hx0
      have h2 : T.countP (fun j => decide (col row j < col row 0)) = 0 := by
        apply List.countP_eq_zero.mpr
        intro y hy
        rcases hT y hy with hlt | ⟨heq, -⟩
        · simpa using asymm hlt
        · simpa using heq.not_gt
      rw [h1, h2]
      simp
    have hperm :
        (argsortRow row).countP (fun j => decide (col row j < col row 0)) =
          (List.range row.length).countP
            (fun j => decide (col row j < col row 0)) :=
      (argsortRow_perm row).countP_eq _
    have hbridge := countP_range_getD row (fun x => decide (x < col row 0))
    rw [hST] at hperm
    rw [hcount] at hperm
    rw [hperm]
    exact hbridge
  · have := argsortRow_length row
    rw [hST] at this
    simp at this
    omega

/-- Characterization of a row's hit positions: the true item (column 0)
appears in the top-K list exactly when at most `TOP_K - 1` columns score
strictly below… precisely, when `W ≤ beatCount + TOP_K` (with `W` the row
width), and then its unique 0-based rank is `W - 1 - beatCount`. -/
lemma zeroPositions_top_indicies (row : List ℚ) :
    zeroPositions (top_indicies row) =
      if 0 < row.length ∧ row.length ≤ beatCount row + TOP_K then
        [row.length - 1 - beatCount row]
      else [] := by
  rcases Nat.eq_zero_or_pos row.length with h0 | h0
  · have hrow : argsortRow row = [] := by
      rw [argsortRow, h0]
      rfl
    rw [top_indicies, hrow]
    simp [zeroPositions, h0]
  · obtain ⟨S, T, hST, hS0, hT0, hlen, hW⟩ := argsortRow_split row h0
    set W := row.length with hWdef
    set d := W - TOP_K with hd
    rw [top_indicies, hST, ← hWdef, ← hd, List.drop_append_eq_append_drop]
    by_cases hcase : d ≤ S.length
    · -- the true item survives the `[:, -TOP_K:]` slice
      have hdrop0 : (0 :: T).drop (d - S.length) = 0 :: T := by
        rw [Nat.sub_eq_zero_of_le hcase, List.drop_zero]
      rw [hdrop0, List.reverse_append, List.reverse_cons, List.append_assoc,
        List.singleton_append]
      rw [zeroPositions_append_zero _ _
          (fun hm => hT0 (List.mem_reverse.mp hm))
          (fun hm => hS0 (List.mem_of_mem_drop (List.mem_reverse.mp hm)))]
      rw [if_pos ⟨h0, by omega⟩]
      simp only [List.length_reverse]
      congr 1
      omega
    · -- the true item is cut away with the dropped prefix
      push_neg at hcase
      have hSd : S.drop d = [] := List.drop_eq_nil_of_le (le_of_lt hcase)
      obtain ⟨m, hm⟩ : ∃ m, d - S.length = m + 1 := ⟨d - S.length - 1, by omega⟩
      rw [hSd, List.nil_append, hm, List.drop_succ_cons]
      rw [zeroPositions_of_not_mem
          (fun hmem => hT0 (List.mem_of_mem_drop (List.mem_reverse.mp hmem)))]
      rw [if_neg (by omega)]

/-! ### The reshape step and the assembled evaluator -/

lemma length_rowsOf (scores : List ℚ) (n : ℕ) :
    (rowsOf scores n).length = n := by
  simp [rowsOf]

lemma flatten_length_uniform (rows : List (List ℚ)) (W : ℕ)
    (hW : ∀ r ∈ rows, r.length = W) :
    rows.flatten.length = rows.length * W := by
  rw [List.length_flatten]
  have hrep : rows.map List.length = List.replicate rows.length W := by
    have : rows.map List.length =
        List.replicate (rows.map List.length).length W :=
      List.eq_replicate_length.mpr (by
        intro b hb
        obtain ⟨r, hr, rfl⟩ := List.mem_map.mp hb
        exact hW r hr)
    simpa using this
  rw [hrep, List.sum_replicate, smul_eq_mul]

lemma chunk_flatten (rows : List (List ℚ)) (W : ℕ)
    (hW : ∀ r ∈ rows, r.length = W) :
    (List.range rows.length).map
      (fun u => ((rows.flatten.drop (u * W)).take W)) = rows := by
  induction rows with
  | nil => simp
  | cons r rest ih =>
      have hr : r.length = W := hW r (List.mem_cons_self r rest)
      rw [List.length_cons, List.range_succ_eq_map, List.map_cons,
        List.map_map, List.flatten_cons]
      congr 1
      · rw [Nat.zero_mul, List.drop_zero, ← hr, List.take_left]
      · have hstep : ∀ u ∈ List.range rest.length,
            ((fun u => (((r ++ rest.flatten).drop (u * W)).take W)) ∘
                Nat.succ) u =
              ((rest.flatten.drop (u * W)).take W) := by
          intro u _
          simp only [Function.comp_apply]
          have h1 : r.length ≤ Nat.succ u * W := by
            rw [hr, Nat.succ_mul]
            exact Nat.le_add_left W (u * W)
          rw [List.drop_append_eq_append_drop,
            List.drop_eq_nil_of_le h1, List.nil_append, hr]
          congr 2
          rw [Nat.succ_mul]
          omega
        rw [List.map_congr_left hstep]
        exact ih fun x hx => hW x (List.mem_cons_of_mem r hx)

/-- Reshaping the flattened matrix recovers the matrix: `reshape` is exact
on inputs of uniform row width. -/
lemma rowsOf_flatten (rows : List (List ℚ)) (W : ℕ)
    (hW : ∀ r ∈ rows, r.length = W) (h : 0 < rows.length) :
    rowsOf rows.flatten rows.length = rows := by
  rw [rowsOf, flatten_length_uniform rows W hW,
    Nat.mul_div_cancel_left _ h]
  exact chunk_flatten rows W hW

lemma hitsOf_flatten (rows : List (List ℚ)) (W : ℕ)
    (hW : ∀ r ∈ rows, r.length = W) (h : 0 < rows.length) :
    hitsOf rows.flatten rows.length =
      rows.map fun row => zeroPositions (top_indicies row) := by
  rw [hitsOf, rowsOf_flatten rows W hW h]

lemma evaluate_model_pos (scores : List ℚ) (n : ℕ) (h1 : 0 < n)
    (h2 : scores.length % n = 0) :
    evaluate_model scores n =
      some { hr := (((hitsOf scores n).map List.length).sum : ℚ) / n,
             ndcg := ((hitsOf scores n).map fun hs =>
                (hs.map dcgAt).sum).sum / n } := by
  rw [evaluate_model, if_pos ⟨h1, h2⟩]

/-- The evaluator on a flattened uniform matrix, with both metrics exposed
as sums of per-row contributions. -/
lemma evaluate_model_flatten (rows : List (List ℚ)) (W : ℕ)
    (hW : ∀ r ∈ rows, r.length = W) (h : 0 < rows.length) :
    evaluate_model rows.flatten rows.length =
      some { hr := (((rows.map fun row =>
                (zeroPositions (top_indicies row)).length).sum : ℕ) : ℚ) /
              rows.length,
             ndcg := (rows.map fun row =>
                ((zeroPositions (top_indicies row)).map dcgAt).sum).sum /
              rows.length } := by
  have hdvd : rows.flatten.length % rows.length = 0 := by
    rw [flatten_length_uniform rows W hW]
    exact Nat.mul_mod_right _ _
  rw [evaluate_model_pos _ _ h hdvd, hitsOf_flatten rows W hW h,
    List.map_map, List.map_map]
  rfl

/-! ### Hit positions versus membership and rank in the top-K list -/

lemma top_indicies_nodup (row : List ℚ) : (top_indicies row).Nodup :=
  List.nodup_reverse.mpr
    (((List.drop_sublist _ _).nodup) (argsortRow_nodup row))

lemma zeroPositions_eq_indexOf {l : List ℕ} (h : l.Nodup) :
    zeroPositions l = if 0 ∈ l then [l.indexOf 0] else [] := by
  by_cases hm : 0 ∈ l
  · obtain ⟨A, B, rfl⟩ := List.append_of_mem hm
    have hA : 0 ∉ A := fun hin =>
      (List.disjoint_of_nodup_append h) hin (List.mem_cons_self 0 B)
    have hB : 0 ∉ B := (List.nodup_cons.mp h.of_append_right).1
    rw [if_pos hm, zeroPositions_append_zero A B hA hB,
      List.indexOf_append_of_not_mem hA, List.indexOf_cons_self]
    simp
  · rw [if_neg hm, zeroPositions_of_not_mem hm]

/-! ### Bounds on a single NDCG contribution -/

lemma dcgAt_pos (p : ℕ) : 0 < dcgAt p := by
  apply div_pos (Real.log_pos (by norm_num))
  apply Real.log_pos
  have : (0 : ℝ) ≤ (p : ℝ) := Nat.cast_nonneg p
  linarith

lemma dcgAt_le_one (p : ℕ) : dcgAt p ≤ 1 := by
  rw [dcgAt, div_le_one (Real.log_pos (by
    have : (0 : ℝ) ≤ (p : ℝ) := Nat.cast_nonneg p
    linarith))]
  rw [Real.log_le_log_iff (by norm_num) (by
    have : (0 : ℝ) ≤ (p : ℝ) := Nat.cast_nonneg p
    linarith)]
  have : (0 : ℝ) ≤ (p : ℝ) := Nat.cast_nonneg p
  linarith

lemma dcgAt_zero : dcgAt 0 = 1 := by
  rw [dcgAt]
  norm_num

/-! ### Per-row bounds and invariance of the hit positions -/

lemma hits_length_le_one (row : List ℚ) :
    (zeroPositions (top_indicies row)).length ≤ 1 := by
  rw [zeroPositions_top_indicies]
  split <;> simp

lemma row_ndcg_nonneg (row : List ℚ) :
    0 ≤ ((zeroPositions (top_indicies row)).map dcgAt).sum := by
  rw [zeroPositions_top_indicies]
  split
  · simpa using (dcgAt_pos _).le
  · simp

lemma row_ndcg_le_one (row : List ℚ) :
    ((zeroPositions (top_indicies row)).map dcgAt).sum ≤ 1 := by
  rw [zeroPositions_top_indicies]
  split
  · simpa using dcgAt_le_one _
  · simp

lemma row_ndcg_le_hits (row : List ℚ) :
    ((zeroPositions (top_indicies row)).map dcgAt).sum ≤
      ((zeroPositions (top_indicies row)).length : ℝ) := by
  rw [zeroPositions_top_indicies]
  split
  · simpa using dcgAt_le_one _
  · simp

/-- Pointwise-equal predicates count the same. -/
lemma countP_ext {α : Type} {l : List α} {p q : α → Bool}
    (h : ∀ a ∈ l, p a = q a) : l.countP p = l.countP q := by
  induction l with
  | nil => rfl
  | cons a t ih =>
      rw [List.countP_cons, List.countP_cons,
        ih (fun x hx => h x (List.mem_cons_of_mem a hx)),
        h a (List.mem_cons_self a t)]

/-- Permuting the non-true columns of a row does not change how many columns
beat the true item. -/
lemma beatCount_cons_perm (a : ℚ) {t t' : List ℚ}
    (hp : List.Perm t' t) : beatCount (a :: t') = beatCount (a :: t) := by
  simp only [beatCount, col, List.getD_cons_zero]
  rw [List.countP_cons, List.countP_cons, hp.countP_eq]

/-- Scaling a whole row by a positive constant does not change how many
columns beat the true item. -/
lemma beatCount_map_mul (row : List ℚ) (c : ℚ) (hc : 0 < c) :
    beatCount (row.map (fun x => c * x)) = beatCount row := by
  cases row with
  | nil => rfl
  | cons a t =>
      simp only [beatCount, col, List.map_cons, List.getD_cons_zero]
      have h1 : List.countP ((fun x => decide (x < c * a)) ∘
          (fun x => c * x)) t = List.countP (fun x => decide (x < a)) t := by
        apply countP_ext
        intro x _
        simp only [Function.comp_apply]
        exact decide_eq_decide.mpr (mul_lt_mul_left hc)
      have h2 : (decide (c * a < c * a)) = (decide (a < a)) :=
        decide_eq_decide.mpr (mul_lt_mul_left hc)
      rw [List.countP_cons, List.countP_cons, List.countP_map, h1, h2]

/-- The hit positions of a row depend only on its width and its
`beatCount`. -/
lemma zeroPositions_top_congr {row row' : List ℚ}
    (hlen : row'.length = row.length)
    (hbeat : beatCount row' = beatCount row) :
    zeroPositions (top_indicies row') = zeroPositions (top_indicies row) := by
  rw [zeroPositions_top_indicies, zeroPositions_top_indicies, hlen, hbeat]

/-- Replacing one row by a row of the same width and the same hit positions
leaves the evaluation unchanged. -/
lemma evaluate_model_row_congr (A B : List (List ℚ)) (r r' : List ℚ) (W : ℕ)
    (hW : ∀ x ∈ A ++ r :: B, x.length = W)
    (hlen : r'.length = r.length)
    (hhits : zeroPositions (top_indicies r') =
      zeroPositions (top_indicies r)) :
    evaluate_model (A ++ r' :: B).flatten (A ++ r :: B).length =
      evaluate_model (A ++ r :: B).flatten (A ++ r :: B).length := by
  have hW' : ∀ x ∈ A ++ r' :: B, x.length = W := by
    intro x hx
    rcases List.mem_append.mp hx with h | h
    · exact hW x (List.mem_append.mpr (Or.inl h))
    · rcases List.mem_cons.mp h with rfl | h
      · rw [hlen]
        exact hW r (by simp)
      · exact hW x (by simp [h])
  have hlens : (A ++ r' :: B).length = (A ++ r :: B).length := by simp
  have hpos : 0 < (A ++ r :: B).length := by simp
  have e1 := evaluate_model_flatten (A ++ r' :: B) W hW'
    (by rw [hlens]; exact hpos)
  rw [hlens] at e1
  have e2 := evaluate_model_flatten (A ++ r :: B) W hW hpos
  rw [e1, e2]
  simp only [List.map_append, List.map_cons, List.sum_append, List.sum_cons,
    hhits]

/-- Total hit count over the rows equals the number of rows whose top-K
list contains the true item: the true item occurs at most once per row. -/
lemma sum_hits_length_eq_countP (rows : List (List ℚ)) :
    (rows.map fun row => (zeroPositions (top_indicies row)).length).sum =
      rows.countP fun row => decide (0 ∈ top_indicies row) := by
  induction rows with
  | nil => rfl
  | cons r rest ih =>
      rw [List.map_cons, List.sum_cons, List.countP_cons, ih,
        zeroPositions_eq_indexOf (top_indicies_nodup r)]
      by_cases hm : 0 ∈ top_indicies r
      · rw [if_pos hm]
        simp [hm, Nat.add_comm]
      · rw [if_neg hm]
        simp [hm]

/-! ### Order structure of the top-K list -/

lemma top_indicies_length (row : List ℚ) :
    (top_indicies row).length = min TOP_K row.length := by
  rw [top_indicies, List.length_reverse, List.length_drop,
    argsortRow_length]
  omega

lemma mem_top_indicies_lt {row : List ℚ} {i : ℕ}
    (h : i ∈ top_indicies row) : i < row.length :=
  mem_argsortRow.mp
    ((List.drop_sublist _ _).subset (List.mem_reverse.mp h))

/-- The top-K list is ordered by descending score; equal scores appear in
descending column-index order (the flip of the stable ascending argsort). -/
lemma top_indicies_sorted (row : List ℚ) :
    (top_indicies row).Pairwise (fun i j =>
      col row j < col row i ∨ (col row i = col row j ∧ j < i)) := by
  have hpw : ((argsortRow row).drop (row.length - TOP_K)).Pairwise
      (fun i j => argKeyLe row i j ∧ i ≠ j) :=
    ((argsortRow_sorted row).sublist (List.drop_sublist _ _)).and
      ((argsortRow_nodup row).sublist (List.drop_sublist _ _))
  rw [top_indicies, List.pairwise_reverse]
  apply hpw.imp
  intro a b hab
  rcases hab with ⟨hle, hne⟩
  rcases hle with hlt | ⟨heq, hle⟩
  · exact Or.inl hlt
  · exact Or.inr ⟨heq.symm, lt_of_le_of_ne hle hne⟩

/-- Every excluded column scores no better than every column kept in the
top-K list (ties resolved towards the larger index, which is the one the
flipped stable argsort keeps). -/
lemma top_indicies_maximal (row : List ℚ) :
    ∀ i ∈ top_indicies row, ∀ j, j < row.length → j ∉ top_indicies row →
      col row j < col row i ∨ (col row j = col row i ∧ j < i) := by
  intro i hi j hj hnj
  have hidrop : i ∈ (argsortRow row).drop (row.length - TOP_K) :=
    List.mem_reverse.mp hi
  have hjsort : j ∈ argsortRow row := mem_argsortRow.mpr hj
  have hjtake : j ∈ (argsortRow row).take (row.length - TOP_K) := by
    rcases List.mem_append.mp
        (by rw [List.take_append_drop]; exact hjsort :
          j ∈ (argsortRow row).take (row.length - TOP_K) ++
            (argsortRow row).drop (row.length - TOP_K)) with h | h
    · exact h
    · exact absurd (List.mem_reverse.mpr h) hnj
  have hsorted : ((argsortRow row).take (row.length - TOP_K) ++
      (argsortRow row).drop (row.length - TOP_K)).Pairwise
      (argKeyLe row) := by
    rw [List.take_append_drop]
    exact argsortRow_sorted row
  have hcross := (List.pairwise_append.mp hsorted).2.2 j hjtake i hidrop
  have hnd : ((argsortRow row).take (row.length - TOP_K) ++
      (argsortRow row).drop (row.length - TOP_K)).Nodup := by
    rw [List.take_append_drop]
    exact argsortRow_nodup row
  have hne : j ≠ i := fun e =>
    (List.disjoint_of_nodup_append hnd) hjtake (e ▸ hidrop)
  rcases hcross with hlt | ⟨heq, hle⟩
  · exact Or.inl hlt
  · exact Or.inr ⟨heq, lt_of_le_of_ne hle hne⟩

/-! ### Concrete evaluations used by the witnesses -/

/-- On `sampleNoHit` the true item misses the top-10, so both metrics are
zero. -/
lemma evaluate_sampleNoHit :
    evaluate_model sampleNoHit 1 = some { hr := 0, ndcg := 0 } := by
  rw [evaluate_model_pos _ _ one_pos (Nat.mod_one _)]
  have h : hitsOf sampleNoHit 1 = [[]] := by decide
  rw [h]
  norm_num

/-- The width-0 degenerate matrix: one user, zero columns. `reshape`
accepts it (`0 % 1 = 0`) and no index can ever equal `0`, so both metrics
are zero. -/
lemma evaluate_nil_one :
    evaluate_model ([] : List ℚ) 1 = some { hr := 0, ndcg := 0 } := by
  rw [evaluate_model_pos _ _ one_pos (Nat.mod_one _)]
  have h : hitsOf ([] : List ℚ) 1 = [[]] := by decide
  rw [h]
  norm_num

/-- Map a per-row function that is constantly `1` and sum (ℕ version). -/
lemma sum_map_one_nat {α : Type} (l : List α) (f : α → ℕ)
    (h : ∀ a ∈ l, f a = 1) : (l.map f).sum = l.length := by
  induction l with
  | nil => rfl
  | cons a t ih =>
      rw [List.map_cons, List.sum_cons, h a (List.mem_cons_self a t),
        ih (fun x hx => h x (List.mem_cons_of_mem a hx)), List.length_cons,
        Nat.add_comm]

/-- Map a per-row function that is constantly `1` and sum (ℝ version). -/
lemma sum_map_one_real {α : Type} (l : List α) (f : α → ℝ)
    (h : ∀ a ∈ l, f a = 1) : (l.map f).sum = l.length := by
  induction l with
  | nil => simp
  | cons a t ih =>
      rw [List.map_cons, List.sum_cons, h a (List.mem_cons_self a t),
        ih (fun x hx => h x (List.mem_cons_of_mem a hx)), List.length_cons]
      push_cast
      ring

/-! ## The claims -/

/-- **C1.** For every score matrix of `num_users` rows the evaluator
returns Hit Ratio = (number of rows whose top-K index set contains column
index 0) / `num_users`, and NDCG = (sum over rows where column 0 appears
in the top-K at 0-based rank `r` of `log 2 / log (r + 2)`) / `num_users`;
rows with no hit contribute 0 to both metrics. -/
theorem C1_metric_formulas (scores : List ℚ) (numUsers : ℕ)
    (res : EvalResults) (h : evaluate_model scores numUsers = some res) :
    res.hr = (((rowsOf scores numUsers).countP fun row =>
        decide (0 ∈ top_indicies row)) : ℚ) / numUsers ∧
    res.ndcg = ((rowsOf scores numUsers).map fun row =>
        if 0 ∈ top_indicies row then
          Real.log 2 / Real.log (((top_indicies row).indexOf 0 : ℝ) + 2)
        else 0).sum / numUsers := by
  rw [evaluate_model] at h
  by_cases hg : 0 < numUsers ∧ scores.length % numUsers = 0
  case neg => rw [if_neg hg] at h; exact absurd h (by simp)
  rw [if_pos hg] at h
  obtain rfl := Option.some.inj h
  constructor
  · show (((hitsOf scores numUsers).map List.length).sum : ℚ) / numUsers = _
    rw [hitsOf, List.map_map]
    rw [show (List.length ∘ fun row => zeroPositions (top_indicies row)) =
      fun row => (zeroPositions (top_indicies row)).length from rfl]
    rw [sum_hits_length_eq_countP]
  · show ((hitsOf scores numUsers).map fun hs =>
      (hs.map dcgAt).sum).sum / numUsers = _
    rw [hitsOf, List.map_map]
    congr 1
    apply congrArg List.sum
    apply List.map_congr_left
    intro row _
    simp only [Function.comp_apply]
    rw [zeroPositions_eq_indexOf (top_indicies_nodup row)]
    by_cases hm : 0 ∈ top_indicies row
    · rw [if_pos hm, if_pos hm]
      simp [dcgAt]
    · rw [if_neg hm, if_neg hm]
      simp

/-- Witness for C1 at a concrete input: the no-hit sample row. -/
theorem C1_metric_formulas_witness :
    (⟨0, 0⟩ : EvalResults).hr = (((rowsOf sampleNoHit 1).countP fun row =>
        decide (0 ∈ top_indicies row)) : ℚ) / ((1 : ℕ) : ℚ) ∧
    (⟨0, 0⟩ : EvalResults).ndcg = ((rowsOf sampleNoHit 1).map fun row =>
        if 0 ∈ top_indicies row then
          Real.log 2 / Real.log (((top_indicies row).indexOf 0 : ℝ) + 2)
        else 0).sum / ((1 : ℕ) : ℝ) :=
  C1_metric_formulas sampleNoHit 1 ⟨0, 0⟩ evaluate_sampleNoHit

/-- **C2 (claim as stated is false).** On the all-ties row `[1, 1]` the
evaluator's top list is `[1, 0]`: the tied true item is listed *after*
the higher-indexed column, violating the claimed ascending-index
tie-break. -/
theorem C2_counterexample :
    ¬ specClaimedOrder [(1 : ℚ), 1] (top_indicies [(1 : ℚ), 1]) := by
  have htop : top_indicies [(1 : ℚ), 1] = [1, 0] := by decide
  rw [specClaimedOrder, htop]
  intro hpw
  rcases (List.pairwise_cons.mp hpw).1 0 (List.mem_singleton_self 0) with
    hlt | ⟨-, hlt⟩
  · exact absurd hlt (by norm_num [col])
  · exact absurd hlt (by norm_num)

/-- **C2 (amended).** The evaluator's top list consists of the `TOP_K`
highest-scoring column indices in strictly descending score order, but
ties are broken by *descending* (not ascending) original column index:
the flip of a stable ascending argsort reverses tie order. -/
theorem C2_top_k_descending_ties_desc (row : List ℚ) :
    (top_indicies row).length = min TOP_K row.length ∧
    (top_indicies row).Pairwise (fun i j =>
      col row j < col row i ∨ (col row i = col row j ∧ j < i)) ∧
    ∀ i ∈ top_indicies row, ∀ j, j < row.length → j ∉ top_indicies row →
      col row j < col row i ∨ (col row j = col row i ∧ j < i) :=
  ⟨top_indicies_length row, top_indicies_sorted row,
    top_indicies_maximal row⟩

/-- Witness for the amended C2 on the concrete sample row, with the
maximality clause instantiated at kept column 11 and dropped column 0. -/
theorem C2_top_k_descending_ties_desc_witness :
    (top_indicies sampleNoHit).length = min TOP_K sampleNoHit.length ∧
    (top_indicies sampleNoHit).Pairwise (fun i j =>
      col sampleNoHit j < col sampleNoHit i ∨
        (col sampleNoHit i = col sampleNoHit j ∧ j < i)) ∧
    (col sampleNoHit 0 < col sampleNoHit 11 ∨
      (col sampleNoHit 0 = col sampleNoHit 11 ∧ 0 < 11)) :=
  ⟨(C2_top_k_descending_ties_desc sampleNoHit).1,
   (C2_top_k_descending_ties_desc sampleNoHit).2.1,
   (C2_top_k_descending_ties_desc sampleNoHit).2.2 11 (by decide) 0
     (by decide) (by decide)⟩

/-- **C3 (claim as stated is false).** A row width `W = 3 < top_k = 10`
does not make the evaluator fail: the slice simply keeps all columns. -/
theorem C3_counterexample : evaluate_model [(1 : ℚ), 2, 3] 1 ≠ none := by
  rw [evaluate_model_pos _ _ one_pos (Nat.mod_one _)]
  exact Option.some_ne_none _

/-- **C3 (amended).** `num_users = 0` (the only representable non-positive
user count) is fatal — the reshape fails — but `W < top_k` is *not*
checked: whenever `num_users` is positive and divides the score count the
evaluator returns a result, whatever the row width. (`top_k` itself is the
fixed constant 10 and can never be non-positive.) -/
theorem C3_zero_users_fatal_narrow_rows_not :
    (∀ scores : List ℚ, evaluate_model scores 0 = none) ∧
    ∀ (scores : List ℚ) (n : ℕ), 0 < n → scores.length % n = 0 →
      (evaluate_model scores n).isSome = true := by
  constructor
  · intro scores
    rw [evaluate_model, if_neg]
    rintro ⟨h, -⟩
    exact absurd h (lt_irrefl 0)
  · intro scores n h1 h2
    rw [evaluate_model_pos scores n h1 h2]
    rfl

/-- Witness for the amended C3. -/
theorem C3_zero_users_fatal_narrow_rows_not_witness :
    evaluate_model [(1 : ℚ)] 0 = none ∧
      (evaluate_model [(1 : ℚ), 2, 3] 1).isSome = true :=
  ⟨C3_zero_users_fatal_narrow_rows_not.1 [1],
   C3_zero_users_fatal_narrow_rows_not.2 [1, 2, 3] 1 one_pos
     (Nat.mod_one _)⟩

/-- **C4.** A flat score vector whose length is not divisible by
`num_users` makes the evaluator fail (the reshape raises) and no result is
returned. -/
theorem C4_not_divisible_fatal (scores : List ℚ) (numUsers : ℕ)
    (h : scores.length % numUsers ≠ 0) :
    evaluate_model scores numUsers = none := by
  rw [evaluate_model, if_neg]
  rintro ⟨-, h2⟩
  exact h h2

/-- Witness for C4: 3 scores cannot be split over 2 users. -/
theorem C4_not_divisible_fatal_witness :
    evaluate_model [(1 : ℚ), 2, 3] 2 = none :=
  C4_not_divisible_fatal [1, 2, 3] 2 (by decide)

/-- **C5.** Whenever the evaluator returns a result, both Hit Ratio and
NDCG lie in `[0, 1]`. -/
theorem C5_metrics_unit_interval (scores : List ℚ) (numUsers : ℕ)
    (res : EvalResults) (h : evaluate_model scores numUsers = some res) :
    0 ≤ res.hr ∧ res.hr ≤ 1 ∧ 0 ≤ res.ndcg ∧ res.ndcg ≤ 1 := by
  rw [evaluate_model] at h
  by_cases hg : 0 < numUsers ∧ scores.length % numUsers = 0
  case neg => rw [if_neg hg] at h; exact absurd h (by simp)
  rw [if_pos hg] at h
  obtain rfl := Option.some.inj h
  obtain ⟨hn, -⟩ := hg
  have hnQ : (0 : ℚ) < numUsers := by exact_mod_cast hn
  have hnR : (0 : ℝ) < numUsers := by exact_mod_cast hn
  have hlen : (hitsOf scores numUsers).length = numUsers := by
    rw [hitsOf, List.length_map, length_rowsOf]
  refine ⟨?_, ?_, ?_, ?_⟩
  · exact div_nonneg (by positivity) hnQ.le
  · rw [div_le_one hnQ]
    have hb : ((hitsOf scores numUsers).map List.length).sum ≤ numUsers := by
      have := List.sum_le_card_nsmul
        ((hitsOf scores numUsers).map List.length) 1 (by
          intro x hx
          obtain ⟨hs, hhs, rfl⟩ := List.mem_map.mp hx
          rw [hitsOf] at hhs
          obtain ⟨row, -, rfl⟩ := List.mem_map.mp hhs
          exact hits_length_le_one row)
      rwa [smul_eq_mul, mul_one, List.length_map, hlen] at this
    exact_mod_cast hb
  · apply div_nonneg _ hnR.le
    apply List.sum_nonneg
    intro x hx
    obtain ⟨hs, hhs, rfl⟩ := List.mem_map.mp hx
    rw [hitsOf] at hhs
    obtain ⟨row, -, rfl⟩ := List.mem_map.mp hhs
    exact row_ndcg_nonneg row
  · rw [div_le_one hnR]
    have hb := List.sum_le_card_nsmul
      ((hitsOf scores numUsers).map fun hs => (hs.map dcgAt).sum) 1 (by
        intro x hx
        obtain ⟨hs, hhs, rfl⟩ := List.mem_map.mp hx
        rw [hitsOf] at hhs
        obtain ⟨row, -, rfl⟩ := List.mem_map.mp hhs
        exact row_ndcg_le_one row)
    rwa [nsmul_eq_mul, mul_one, List.length_map, hlen] at hb

/-- Witness for C5 at the concrete no-hit sample. -/
theorem C5_metrics_unit_interval_witness :
    0 ≤ (⟨0, 0⟩ : EvalResults).hr ∧ (⟨0, 0⟩ : EvalResults).hr ≤ 1 ∧
      0 ≤ (⟨0, 0⟩ : EvalResults).ndcg ∧ (⟨0, 0⟩ : EvalResults).ndcg ≤ 1 :=
  C5_metrics_unit_interval sampleNoHit 1 ⟨0, 0⟩ evaluate_sampleNoHit

/-- **C6.** Multiplying every score of one row by the same positive
constant leaves the evaluator's output unchanged. -/
theorem C6_positive_scaling_invariant (A B : List (List ℚ)) (r : List ℚ)
    (W : ℕ) (c : ℚ) (hc : 0 < c) (hW : ∀ x ∈ A ++ r :: B, x.length = W) :
    evaluate_model (A ++ (r.map fun x => c * x) :: B).flatten
        (A ++ r :: B).length =
      evaluate_model (A ++ r :: B).flatten (A ++ r :: B).length :=
  evaluate_model_row_congr A B r _ W hW (by simp)
    (zeroPositions_top_congr (by simp) (beatCount_map_mul r c hc))

/-- Witness for C6: scaling the single row `[2, 1]` by `3`. -/
theorem C6_positive_scaling_invariant_witness :
    evaluate_model (([] : List (List ℚ)) ++
        ([(2 : ℚ), 1].map fun x => 3 * x) :: []).flatten
        (([] : List (List ℚ)) ++ [(2 : ℚ), 1] :: []).length =
      evaluate_model (([] : List (List ℚ)) ++
        [(2 : ℚ), 1] :: []).flatten
        (([] : List (List ℚ)) ++ [(2 : ℚ), 1] :: []).length :=
  C6_positive_scaling_invariant [] [] [2, 1] 2 3 (by norm_num) (by decide)

/-- **C7.** Permuting the non-true columns (columns `1..W-1`) of a row,
carrying their scores along, leaves the evaluator's output unchanged. -/
theorem C7_negative_order_invariant (A B : List (List ℚ)) (a : ℚ)
    (t t' : List ℚ) (W : ℕ) (hp : List.Perm t' t)
    (hW : ∀ x ∈ A ++ (a :: t) :: B, x.length = W) :
    evaluate_model (A ++ (a :: t') :: B).flatten
        (A ++ (a :: t) :: B).length =
      evaluate_model (A ++ (a :: t) :: B).flatten
        (A ++ (a :: t) :: B).length :=
  evaluate_model_row_congr A B (a :: t) (a :: t') W hW
    (by simp [hp.length_eq])
    (zeroPositions_top_congr (by simp [hp.length_eq])
      (beatCount_cons_perm a hp))

/-- Witness for C7: swapping the two negatives of `[1, 2, 3]`. -/
theorem C7_negative_order_invariant_witness :
    evaluate_model (([] : List (List ℚ)) ++
        ((1 : ℚ) :: [(3 : ℚ), 2]) :: []).flatten
        (([] : List (List ℚ)) ++ ((1 : ℚ) :: [(2 : ℚ), 3]) :: []).length =
      evaluate_model (([] : List (List ℚ)) ++
        ((1 : ℚ) :: [(2 : ℚ), 3]) :: []).flatten
        (([] : List (List ℚ)) ++ ((1 : ℚ) :: [(2 : ℚ), 3]) :: []).length :=
  C7_negative_order_invariant [] [] 1 [2, 3] [3, 2] 3 (by decide) (by decide)

/-- **C8.** If the true item strictly out-scores every other column in
every row, the evaluator returns Hit Ratio 1 and NDCG 1. -/
theorem C8_strict_best_perfect_metrics (rows : List (List ℚ)) (W : ℕ)
    (h0 : rows ≠ []) (hW : ∀ r ∈ rows, r.length = W)
    (hbest : ∀ r ∈ rows, ∃ a t, r = a :: t ∧ ∀ x ∈ t, x < a) :
    evaluate_model rows.flatten rows.length =
      some { hr := 1, ndcg := 1 } := by
  have hpos : 0 < rows.length := List.length_pos.mpr h0
  rw [evaluate_model_flatten rows W hW hpos]
  have hzp : ∀ r ∈ rows, zeroPositions (top_indicies r) = [0] := by
    intro r hr
    obtain ⟨a, t, rfl, hlt⟩ := hbest r hr
    have hbc : beatCount (a :: t) = t.length := by
      simp only [beatCount, col, List.getD_cons_zero]
      rw [List.countP_cons,
        List.countP_eq_length.mpr (fun x hx => decide_eq_true (hlt x hx))]
      simp
    have hTK : TOP_K = 10 := rfl
    rw [zeroPositions_top_indicies, hbc,
      if_pos ⟨by simp, by rw [List.length_cons]; omega⟩]
    rw [List.length_cons]
    congr 1
    omega
  have hsum1 : (rows.map fun row =>
      (zeroPositions (top_indicies row)).length).sum = rows.length :=
    sum_map_one_nat rows _ (fun r hr => by rw [hzp r hr]; rfl)
  have hsum2 : (rows.map fun row =>
      ((zeroPositions (top_indicies row)).map dcgAt).sum).sum =
        (rows.length : ℝ) :=
    sum_map_one_real rows _ (fun r hr => by
      rw [hzp r hr, List.map_cons, List.map_nil, List.sum_cons,
        List.sum_nil, add_zero, dcgAt_zero])
  have e1 : ((rows.length : ℕ) : ℚ) / (rows.length : ℚ) = 1 :=
    div_self (by exact_mod_cast hpos.ne')
  have e2 : ((rows.length : ℕ) : ℝ) / (rows.length : ℝ) = 1 :=
    div_self (by exact_mod_cast hpos.ne')
  rw [hsum1, hsum2, e1, e2]

/-- Witness for C8 on the single row `[2, 1]`. -/
theorem C8_strict_best_perfect_metrics_witness :
    evaluate_model ([[(2 : ℚ), 1]]).flatten ([[(2 : ℚ), 1]]).length =
      some { hr := 1, ndcg := 1 } :=
  C8_strict_best_perfect_metrics [[2, 1]] 2 (by decide) (by decide)
    (fun r hr => by
      rcases List.mem_singleton.mp hr with rfl
      exact ⟨2, [1], rfl, by decide⟩)

/-- **C9 (claim as stated is false).** The degenerate width-0 matrix has
`W = 0 ≤ 10`, yet the evaluator returns Hit Ratio 0, not 1: there is no
column 0 to appear in the (empty) top-K list. -/
theorem C9_counterexample :
    (evaluate_model ([] : List ℚ) 1).map EvalResults.hr = some 0 ∧
      (0 : ℚ) ≠ 1 :=
  ⟨by rw [evaluate_nil_one]; rfl, by norm_num⟩

/-- **C9 (amended).** For every score matrix whose row width `W` satisfies
`1 ≤ W ≤ 10`, the evaluator raises no error and returns Hit Ratio 1
regardless of the score values: the top-K slice keeps all `W` column
indices of every row, so column 0 always appears. -/
theorem C9_narrow_rows_always_hit (rows : List (List ℚ)) (W : ℕ)
    (h0 : rows ≠ []) (hW : ∀ r ∈ rows, r.length = W) (h1 : 1 ≤ W)
    (h10 : W ≤ TOP_K) :
    (evaluate_model rows.flatten rows.length).map EvalResults.hr =
      some 1 := by
  have hpos : 0 < rows.length := List.length_pos.mpr h0
  rw [evaluate_model_flatten rows W hW hpos, Option.map_some',
    Option.some.injEq]
  show ((((rows.map fun row =>
      (zeroPositions (top_indicies row)).length).sum : ℕ) : ℚ)) /
      (rows.length : ℚ) = 1
  have hone : ∀ r ∈ rows,
      (zeroPositions (top_indicies r)).length = 1 := by
    intro r hr
    rw [zeroPositions_top_indicies, if_pos ⟨by rw [hW r hr]; omega,
      by rw [hW r hr]; exact le_trans h10 (Nat.le_add_left _ _)⟩]
    rfl
  rw [sum_map_one_nat rows _ hone]
  exact div_self (by exact_mod_cast hpos.ne' : ((rows.length : ℕ) : ℚ) ≠ 0)

/-- Witness for the amended C9: a single row of width 1. -/
theorem C9_narrow_rows_always_hit_witness :
    (evaluate_model ([[(1 : ℚ)]]).flatten ([[(1 : ℚ)]]).length).map
        EvalResults.hr = some 1 :=
  C9_narrow_rows_always_hit [[1]] 1 (by decide) (by decide) le_rfl
    (by decide)

/-- **C10.** The NDCG the evaluator returns never exceeds the Hit Ratio it
returns on the same input: a hit contributes at most 1 to the NDCG
numerator but exactly 1 to the Hit-Ratio numerator. -/
theorem C10_ndcg_le_hr (scores : List ℚ) (numUsers : ℕ)
    (res : EvalResults) (h : evaluate_model scores numUsers = some res) :
    res.ndcg ≤ (res.hr : ℝ) := by
  rw [evaluate_model] at h
  by_cases hg : 0 < numUsers ∧ scores.length % numUsers = 0
  case neg => rw [if_neg hg] at h; exact absurd h (by simp)
  rw [if_pos hg] at h
  obtain rfl := Option.some.inj h
  obtain ⟨hn, -⟩ := hg
  have hnR : (0 : ℝ) < numUsers := by exact_mod_cast hn
  show ((hitsOf scores numUsers).map fun hs =>
      (hs.map dcgAt).sum).sum / (numUsers : ℝ) ≤
    ((((((hitsOf scores numUsers).map List.length).sum : ℕ) : ℚ) /
      (numUsers : ℚ) : ℚ) : ℝ)
  have hcast :
      ((((((hitsOf scores numUsers).map List.length).sum : ℕ) : ℚ) /
          (numUsers : ℚ) : ℚ) : ℝ) =
        ((((hitsOf scores numUsers).map List.length).sum : ℕ) : ℝ) /
          (numUsers : ℝ) := by
    simp only [Rat.cast_div, Rat.cast_natCast]
  rw [hcast]
  have hsums : ((hitsOf scores numUsers).map fun hs =>
      (hs.map dcgAt).sum).sum ≤
        ((((hitsOf scores numUsers).map List.length).sum : ℕ) : ℝ) := by
    rw [Nat.cast_list_sum, List.map_map]
    apply List.sum_le_sum
    intro hs hhs
    rw [hitsOf] at hhs
    obtain ⟨row, -, rfl⟩ := List.mem_map.mp hhs
    exact row_ndcg_le_hits row
  exact (div_le_div_iff_of_pos_right hnR).mpr hsums

/-- Witness for C10 at the concrete no-hit sample. -/
theorem C10_ndcg_le_hr_witness :
    (⟨0, 0⟩ : EvalResults).ndcg ≤ ((⟨0, 0⟩ : EvalResults).hr : ℝ) :=
  C10_ndcg_le_hr sampleNoHit 1 ⟨0, 0⟩ evaluate_sampleNoHit

end NcfMain
